import Mathlib

/-!
Verification development for the sidechain repository: a one-way incremental
lossy mirror of a music directory tree.  The Rust sources (src/main.rs,
src/worker.rs, src/db.rs, src/util.rs) are shallowly embedded below as pure
Lean functions; filesystem effects are made explicit by threading the set of
existing destination files, and the per-file fallible operations (stat, hash,
ffmpeg, hardlink/copy) are supplied by an environment of oracles.
-/

namespace Sidechain

/-- A filesystem path in parsed form: directory components, file stem and
optional extension, mirroring how the Rust code consumes `Path` values via
`file_name`, `extension`, `strip_prefix`, `join` and `set_extension`.
Non-UTF8 names are unsupported by the program, so strings suffice. -/
structure SPath where
  dirs : List String
  stem : String
  ext : Option String
deriving DecidableEq, Repr

/-- worker.rs `FileInfo`: one persisted record describing the last processed
state of a source file. -/
structure FileInfo where
  dst : SPath
  hash : String
  mtime : Int
  size : Nat
  config : String
deriving DecidableEq, Repr

/-- worker.rs `FileStatus`. -/
inductive FileStatus
  | PassedThrough
  | Transcoded
  | Reclaimed
  | Skipped
deriving DecidableEq, Repr

/-- worker.rs `ProcessedFile`: the outcome a worker sends to the aggregator. -/
structure ProcessedFile where
  src : SPath
  info : FileInfo
  status : FileStatus
deriving DecidableEq, Repr

/-- The per-file failure modes of worker.rs `process_file` (anyhow errors in
the source): stat failure, `map_src_to_dst` failure, hash/read failure,
non-zero ffmpeg exit, copy failure, hardlink failure. -/
inductive PfError
  | statFail
  | mapFail
  | hashFail
  | transcodeFail
  | copyFail
  | linkFail
deriving DecidableEq, Repr

instance instDecEqExcept {ε α : Type} [DecidableEq ε] [DecidableEq α] :
    DecidableEq (Except ε α) := fun x y =>
  match x, y with
  | .error a, .error b =>
    if h : a = b then isTrue (h ▸ rfl) else isFalse (fun hc => h (by cases hc; rfl))
  | .ok a, .ok b =>
    if h : a = b then isTrue (h ▸ rfl) else isFalse (fun hc => h (by cases hc; rfl))
  | .error _, .ok _ => isFalse (fun hc => by cases hc)
  | .ok _, .error _ => isFalse (fun hc => by cases hc)

/-- The cache loaded from the SQLite files table (db.rs `load_cache`), and the
table itself: rows keyed by source path (src_path is UNIQUE). -/
abbrev FileDB : Type := List (SPath × FileInfo)

/-- The orphan index (worker.rs `OrphanCache`): content hash to the records of
no-longer-live source paths sharing that hash. -/
abbrev Orphans : Type := List (String × List FileInfo)

/-- worker.rs `WorkerSettings`: the static per-run configuration plus the two
shared read-only snapshots. -/
structure WorkerSettings where
  src_root : List String
  dst_root : List String
  allowed_exts : List String
  target_ext : String
  bitrate : Nat
  should_copy : Bool
  orphans : Orphans
  cache : FileDB

/-- Oracles for the per-file fallible operations of worker.rs: `statOf` is
`fs::metadata` + mtime extraction (None = stat failure), `hashOf` is
`compute_hash` (None = read failure), and the Bool oracles give the success of
the ffmpeg invocation, `fs::copy` and `fs::hard_link` for a given source. -/
structure RunEnv where
  statOf : SPath → Option (Int × Nat)
  hashOf : SPath → Option String
  transcodeOk : SPath → Bool
  copyOk : SPath → Bool
  linkOk : SPath → Bool

/-- One walkdir entry seen by main.rs `find_src_files`: its path, whether it
is a regular file (walkdir `file_type().is_file()`), its metadata length
(`unwrap_or(0)` on metadata failure), and the result of `fs::canonicalize`
on it (None = canonicalization failure). -/
structure ScanEntry where
  path : SPath
  isFile : Bool
  size : Nat
  canon : Option SPath
deriving DecidableEq, Repr

/-- The fields of main.rs `Args` that `find_src_files` reads. -/
structure ScanArgs where
  source : List String
  destination : List String
  allowed_exts : List String
  ignored_exts : List String
  format : String

/-- main.rs `WorkStats`. -/
structure WorkStats where
  successes : Nat
  skips : Nat
  fails : Nat
deriving DecidableEq, Repr

/-- Rust `str::to_lowercase`, modelled per character (the program only
compares ASCII extension strings). -/
def lowerStr (s : String) : String := ⟨s.data.map Char.toLower⟩

/-- util.rs `has_extension`: case-insensitive membership of the path
extension in the given list; a path without extension never matches. -/
def has_extension (path : SPath) (ext_list : List String) : Bool :=
  match path.ext with
  | some ext => ext_list.any (fun e => lowerStr e == lowerStr ext)
  | none => false

/-- Rust `Path::strip_prefix` on directory components: remove the root
component list from the front, failing when it is not there. -/
def dropRoot : List String → List String → Option (List String)
  | [], ds => some ds
  | _ :: _, [] => none
  | r :: rs, d :: ds => if r = d then dropRoot rs ds else none

/-- util.rs `map_src_to_dst`: re-root the source path under the destination
tree and, when `set_ext` is true, rewrite the extension to `target_ext`
(Rust `set_extension` removes the extension when given an empty string). -/
def map_src_to_dst (src : SPath) (src_root dst_root : List String)
    (target_ext : String) (set_ext : Bool) : Option SPath :=
  match dropRoot src_root src.dirs with
  | none => none
  | some rel =>
    let dst : SPath := ⟨dst_root ++ rel, src.stem, src.ext⟩
    some (if set_ext then
            { dst with ext := if target_ext = "" then none else some target_ext }
          else dst)

/-- Rust `Path::file_name` in parsed form: the stem/extension pair. -/
def fileName (p : SPath) : String × Option String := (p.stem, p.ext)

/-- The set of files existing on disk in the destination tree, as a list. -/
abbrev FS : Type := List SPath

/-- `Path::exists` on the modelled destination filesystem. -/
def fsHas : FS → SPath → Bool
  | [], _ => false
  | q :: rest, p => if q = p then true else fsHas rest p

/-- `fs::remove_file` ignoring NotFound: drop the path from the set. -/
def fsErase : FS → SPath → FS
  | [], _ => []
  | q :: rest, p => if q = p then fsErase rest p else q :: fsErase rest p

/-- Creation of a destination file: add the path to the set. -/
def fsInsert (fs : FS) (p : SPath) : FS := if fsHas fs p then fs else p :: fs

/-- Keyed lookup in the files table / loaded cache (HashMap get, SQL SELECT by
src_path). -/
def dbGet : FileDB → SPath → Option FileInfo
  | [], _ => none
  | (k, v) :: rest, s => if k = s then some v else dbGet rest s

/-- db.rs `flush_batch` row effect: INSERT .. ON CONFLICT(src_path) DO UPDATE,
i.e. replace the row keyed by `s` or append a new one. -/
def dbUpsert : FileDB → SPath → FileInfo → FileDB
  | [], s, i => [(s, i)]
  | (k, v) :: rest, s, i =>
    if k = s then (s, i) :: rest else (k, v) :: dbUpsert rest s i

/-- DELETE FROM files WHERE src_path = p. -/
def dbDelete : FileDB → SPath → FileDB
  | [], _ => []
  | (k, v) :: rest, p => if k = p then dbDelete rest p else (k, v) :: dbDelete rest p

/-- db.rs `prune`: delete each listed source path from the files table. -/
def prune : FileDB → List SPath → FileDB
  | db, [] => db
  | db, p :: rest => prune (dbDelete db p) rest

/-- Lookup a hash group in the orphan index (HashMap get). -/
def oGet : Orphans → String → Option (List FileInfo)
  | [], _ => none
  | (k, v) :: rest, h => if k = h then some v else oGet rest h

/-- `map.entry(hash).or_default().push(info)`: append to the hash group,
creating it when absent. -/
def oAdd : Orphans → String → FileInfo → Orphans
  | [], h, i => [(h, [i])]
  | (k, v) :: rest, h, i =>
    if k = h then (k, v ++ [i]) :: rest else (k, v) :: oAdd rest h i

/-- The config tag computed at the top of worker.rs `process_file`:
"format:bitrate" when the file is to be transcoded, else the passthrough
sentinel. -/
def config_of (args : WorkerSettings) (src : SPath) : String :=
  if has_extension src args.allowed_exts then
    args.target_ext ++ ":" ++ toString args.bitrate
  else "passthrough"

/-- The guarded delete `if dst.exists() { remove_file(&dst) }` of worker.rs
lines 147-150. -/
def remove_if_there (fs : FS) (p : SPath) : FS :=
  if fsHas fs p then fsErase fs p else fs

/-- The orphan-group loop of worker.rs `process_file` (lines 126-170): walk the
hash group in order; skip entries whose destination no longer exists, whose
config tag differs, or whose size differs (hash-match/size-mismatch anomaly);
otherwise remove the already-occupied target and attempt the atomic rename,
which in this sequential filesystem model succeeds exactly when the orphan
destination still exists.  Returns the claimed orphan (if any) and the
resulting filesystem. -/
def reclaim_scan (config : String) (size : Nat) (dst : SPath) :
    FS → List FileInfo → Option FileInfo × FS
  | fs, [] => (none, fs)
  | fs, info :: rest =>
    if fsHas fs info.dst = false then reclaim_scan config size dst fs rest
    else if info.config ≠ config then reclaim_scan config size dst fs rest
    else if info.size ≠ size then reclaim_scan config size dst fs rest
    else
      if fsHas (remove_if_there fs dst) info.dst then
        (some info, fsInsert (fsErase (remove_if_there fs dst) info.dst) dst)
      else reclaim_scan config size dst (remove_if_there fs dst) rest

/-- Outcome of one worker.rs `process_file` call: the result (outcome or
per-file error), the destination filesystem afterwards, and the number of
ffmpeg invocations made (0 or 1). -/
structure PfOut where
  res : Except PfError ProcessedFile
  fs : FS
  enc : Nat
deriving DecidableEq, Repr

/-- worker.rs `process_file` after the cache branch (lines 117-204): hash the
source, attempt rename-reclaim via the orphan index, and otherwise fall back
to ffmpeg (transcode) or remove-then-copy/hardlink (passthrough).  Directory
creation (`create_dir_all`) is idempotent and not observable here. -/
def process_rest (env : RunEnv) (fs : FS) (src : SPath) (args : WorkerSettings)
    (do_transcode : Bool) (config : String) (mtime : Int) (size : Nat)
    (dst : SPath) : PfOut :=
  match env.hashOf src with
  | none => ⟨.error .hashFail, fs, 0⟩
  | some hash =>
    match reclaim_scan config size dst fs ((oGet args.orphans hash).getD []) with
    | (some _, fs1) =>
      ⟨.ok ⟨src, ⟨dst, hash, mtime, size, config⟩, .Reclaimed⟩, fs1, 0⟩
    | (none, fs1) =>
      if do_transcode then
        if env.transcodeOk src then
          ⟨.ok ⟨src, ⟨dst, hash, mtime, size, config⟩, .Transcoded⟩,
            fsInsert (fsErase fs1 dst) dst, 1⟩
        else ⟨.error .transcodeFail, fsErase fs1 dst, 1⟩
      else
        if args.should_copy then
          if env.copyOk src then
            ⟨.ok ⟨src, ⟨dst, hash, mtime, size, config⟩, .PassedThrough⟩,
              fsInsert (fsErase fs1 dst) dst, 0⟩
          else ⟨.error .copyFail, fsErase fs1 dst, 0⟩
        else
          if env.linkOk src then
            ⟨.ok ⟨src, ⟨dst, hash, mtime, size, config⟩, .PassedThrough⟩,
              fsInsert (fsErase fs1 dst) dst, 0⟩
          else ⟨.error .linkFail, fsErase fs1 dst, 0⟩

/-- worker.rs `process_file` (lines 51-205).  The cache branch: on a hit whose
config tag and destination match and whose mtime, size and destination
existence all check out, return Skipped reusing the stored hash; every other
hit removes the stale previous destination (`fs::remove_file(&hit.dst)`,
NotFound ignored) and reprocesses; a miss reprocesses directly. -/
def process_file (env : RunEnv) (fs : FS) (src : SPath)
    (args : WorkerSettings) : PfOut :=
  match env.statOf src with
  | none => ⟨.error .statFail, fs, 0⟩
  | some (mtime, size) =>
    match map_src_to_dst src args.src_root args.dst_root args.target_ext
        (has_extension src args.allowed_exts) with
    | none => ⟨.error .mapFail, fs, 0⟩
    | some dst =>
      match dbGet args.cache src with
      | some hit =>
        if hit.config ≠ config_of args src then
          process_rest env (fsErase fs hit.dst) src args
            (has_extension src args.allowed_exts) (config_of args src) mtime size dst
        else if hit.dst ≠ dst then
          process_rest env (fsErase fs hit.dst) src args
            (has_extension src args.allowed_exts) (config_of args src) mtime size dst
        else if hit.mtime = mtime ∧ hit.size = size ∧ fsHas fs hit.dst = true then
          ⟨.ok ⟨src, ⟨dst, hit.hash, hit.mtime, hit.size, config_of args src⟩, .Skipped⟩,
            fs, 0⟩
        else
          process_rest env (fsErase fs hit.dst) src args
            (has_extension src args.allowed_exts) (config_of args src) mtime size dst
      | none =>
        process_rest env fs src args
          (has_extension src args.allowed_exts) (config_of args src) mtime size dst

/-- One step of the main.rs `find_src_files` walk loop: skip non-files, skip
the database file itself (canonical comparison guarded by a file-name match),
skip ignored extensions, compute the destination and drop the entry when that
destination is already allocated (collision), else allocate it and record the
candidate.  State: allocated destinations and the candidate list with sizes. -/
def scan_step (args : ScanArgs) (dbCanon : SPath)
    (st : List SPath × List (SPath × Nat)) (e : ScanEntry) :
    Option (List SPath × List (SPath × Nat)) :=
  if e.isFile = false then some st
  else if fileName e.path = fileName dbCanon ∧ e.canon = some dbCanon then some st
  else if has_extension e.path args.ignored_exts then some st
  else
    match map_src_to_dst e.path args.source args.destination args.format
        (has_extension e.path args.allowed_exts) with
    | none => none
    | some dst =>
      if dst ∈ st.1 then some st
      else some (dst :: st.1, st.2 ++ [(e.path, e.size)])

/-- The walk loop of main.rs `find_src_files` over a list of walkdir entries;
a `map_src_to_dst` failure aborts the scan. -/
def scan_go (args : ScanArgs) (dbCanon : SPath) :
    List SPath × List (SPath × Nat) → List ScanEntry →
    Option (List SPath × List (SPath × Nat))
  | st, [] => some st
  | st, e :: rest =>
    match scan_step args dbCanon st e with
    | none => none
    | some st1 => scan_go args dbCanon st1 rest

/-- Stable insertion into an ascending-by-size list (equal sizes keep the
earlier element first). -/
def insertBySize (x : SPath × Nat) : List (SPath × Nat) → List (SPath × Nat)
  | [] => [x]
  | y :: rest => if x.2 ≤ y.2 then x :: y :: rest else y :: insertBySize x rest

/-- Rust stable `sort_by_cached_key(|size| *size)`: ascending by size, stable. -/
def sortBySize : List (SPath × Nat) → List (SPath × Nat)
  | [] => []
  | x :: rest => insertBySize x (sortBySize rest)

/-- main.rs `find_src_files` (lines 185-253): walk the entries, then sort the
surviving candidates ascending by size and reverse, yielding the
descending-size processing order. -/
def find_src_files (args : ScanArgs) (dbCanon : SPath)
    (entries : List ScanEntry) : Option (List SPath) :=
  match scan_go args dbCanon ([], []) entries with
  | none => none
  | some st => some (((sortBySize st.2).reverse).map (fun x => x.1))

/-- The loop of main.rs `find_orphans`, with the accumulator (orphan index,
paths to prune) made explicit. -/
def find_orphans_go (acc : Orphans × List SPath) :
    FileDB → List SPath → Orphans × List SPath
  | [], _ => acc
  | (src, info) :: rest, files =>
    if src ∈ files then find_orphans_go acc rest files
    else find_orphans_go (oAdd acc.1 info.hash info, acc.2 ++ [src]) rest files

/-- main.rs `find_orphans` (lines 256-270): every cache record whose source
path is not a live candidate is grouped by hash into the orphan index and
listed for database pruning. -/
def find_orphans (cache : FileDB) (files : List SPath) : Orphans × List SPath :=
  find_orphans_go ([], []) cache files

/-- The worker fan-out of main.rs `spawn_workers`, sequentialized: process each
candidate in order, threading the destination filesystem and summing ffmpeg
invocations; a per-file error is recorded and does not stop the run. -/
def run_files (env : RunEnv) (args : WorkerSettings) :
    FS → List SPath →
    List (SPath × Except PfError ProcessedFile) × FS × Nat
  | fs, [] => ([], fs, 0)
  | fs, src :: rest =>
    let out := process_file env fs src args
    let r := run_files env args out.fs rest
    ((src, out.res) :: r.1, r.2.1, out.enc + r.2.2)

/-- The statistics accumulation of the aggregator in main.rs `spawn_workers`:
Skipped counts as a skip, the other successful statuses as successes, and an
error as a failure. -/
def tally : List (SPath × Except PfError ProcessedFile) → WorkStats
  | [] => ⟨0, 0, 0⟩
  | (_, .ok f) :: rest =>
    let s := tally rest
    match f.status with
    | .Skipped => ⟨s.successes, s.skips + 1, s.fails⟩
    | _ => ⟨s.successes + 1, s.skips, s.fails⟩
  | (_, .error _) :: rest =>
    let s := tally rest
    ⟨s.successes, s.skips, s.fails + 1⟩

/-- `stream.flatten` in main.rs `spawn_workers`: the per-file errors are
dropped and only successful outcomes reach `ingest_results`. -/
def ok_results : List (SPath × Except PfError ProcessedFile) → List ProcessedFile
  | [] => []
  | (_, .ok f) :: rest => f :: ok_results rest
  | (_, .error _) :: rest => ok_results rest

/-- db.rs `ingest_results` (lines 86-110): upsert the PassedThrough, Transcoded
and Reclaimed outcomes, in stream order, into the files table; every other
status falls into the catch-all arm and is not persisted.  The source batches
rows 1000 at a time purely to bound transaction size; the resulting table
contents equal this per-row fold. -/
def ingest_results : FileDB → List ProcessedFile → FileDB
  | db, [] => db
  | db, f :: rest =>
    match f.status with
    | .PassedThrough | .Transcoded | .Reclaimed =>
      ingest_results (dbUpsert db f.src f.info) rest
    | _ => ingest_results db rest

/-- The three-way classification of the spec PathMatcher, as realized by the
code: main.rs `find_src_files` drops ignored extensions before anything else
(so ignored dominates allowed), and worker.rs `process_file` transcodes
exactly the allowed extensions, passing everything else through. -/
inductive FileClass
  | Ignore
  | Transcode
  | Passthrough
deriving DecidableEq, Repr

/-- Composite extension classification (see `FileClass`). -/
def classify (path : SPath) (allowed ignored : List String) : FileClass :=
  if has_extension path ignored then .Ignore
  else if has_extension path allowed then .Transcode
  else .Passthrough

/-! Concrete run scenarios used to evaluate the model at specific inputs. -/

/-- Source path of a file processed in a previous run and since renamed. -/
def exP1 : SPath := ⟨["m"], "x", some "flac"⟩

/-- The source path the renamed file now lives at. -/
def exP2 : SPath := ⟨["m"], "y", some "flac"⟩

/-- The persisted record of `exP1` from the previous run. -/
def exRec : FileInfo := ⟨⟨["o"], "x", some "ogg"⟩, "h1", 10, 5, "ogg:128"⟩

/-- A one-row files table holding only the record of `exP1`. -/
def exDB : FileDB := [(exP1, exRec)]

/-- The candidate list of the current run: only `exP2`. -/
def exFiles : List SPath := [exP2]

/-- Oracles for a run in which only `exP2` exists, carrying the same bytes
(hence hash and size) the record of `exP1` describes. -/
def exEnv : RunEnv :=
  ⟨fun p => if p = exP2 then some (20, 5) else none,
   fun p => if p = exP2 then some "h1" else none,
   fun _ => true, fun _ => true, fun _ => true⟩

/-- Destination tree contents: only the output produced for `exP1`. -/
def exFS : FS := [⟨["o"], "x", some "ogg"⟩]

/-- Worker settings for the rename scenario. -/
def exSt : WorkerSettings :=
  ⟨["m"], ["o"], ["flac"], "ogg", 128, false, (find_orphans exDB exFiles).1, exDB⟩

/-- An up-to-date record for `exP2` matching `exEnv` exactly. -/
def exRec2 : FileInfo := ⟨⟨["o"], "y", some "ogg"⟩, "h1", 20, 5, "ogg:128"⟩

/-- Files table for the unchanged-second-run scenario. -/
def exDB2 : FileDB := [(exP2, exRec2)]

/-- Worker settings for the unchanged-second-run scenario. -/
def exSt2 : WorkerSettings :=
  ⟨["m"], ["o"], ["flac"], "ogg", 128, false, (find_orphans exDB2 exFiles).1, exDB2⟩

/-- Destination tree contents for the unchanged-second-run scenario. -/
def exFS2 : FS := [⟨["o"], "y", some "ogg"⟩]

/-- A stale record for `exP2` written with an older bitrate (config tag
"ogg:64"), forcing a reprocess on the next run. -/
def exOld : FileInfo := ⟨⟨["o"], "y", some "ogg"⟩, "h0", 1, 7, "ogg:64"⟩

/-- Files table holding the orphaned record of `exP1` and the stale record of
`exP2`. -/
def exDB5 : FileDB := [(exP1, exRec), (exP2, exOld)]

/-- Worker settings for the forced-reprocess-then-reclaim scenario. -/
def exSt5 : WorkerSettings :=
  ⟨["m"], ["o"], ["flac"], "ogg", 128, false, (find_orphans exDB5 exFiles).1, exDB5⟩

/-- Oracles under which every stat fails, so processing `exP2` yields a
per-file error. -/
def exEnvFail : RunEnv :=
  ⟨fun _ => none, fun _ => none, fun _ => true, fun _ => true, fun _ => true⟩

/-- A Skipped outcome, as fed to the persistence writer. -/
def exSkipPf : ProcessedFile := ⟨exP2, exRec2, .Skipped⟩

/-- A PassedThrough outcome, as fed to the persistence writer. -/
def exPassPf : ProcessedFile := ⟨exP1, exRec, .PassedThrough⟩

/-- First-walked scanner entry path (smaller file). -/
def sp1 : SPath := ⟨["m"], "a", some "flac"⟩

/-- Later-walked scanner entry path mapping to the same destination (larger
file, extension differing only in case). -/
def sp2 : SPath := ⟨["m"], "a", some "FLAC"⟩

/-- Canonical path of the SQLite database file. -/
def sdb : SPath := ⟨["d"], "cache", some "sqlite"⟩

/-- Walkdir entry for `sp1`, size 1. -/
def se1 : ScanEntry := ⟨sp1, true, 1, some sp1⟩

/-- Walkdir entry for `sp2`, size 2. -/
def se2 : ScanEntry := ⟨sp2, true, 2, some sp2⟩

/-- Scanner arguments for the collision scenario. -/
def sArgs : ScanArgs := ⟨["m"], ["o"], ["flac"], [], "ogg"⟩

/-- A walkdir entry that is the database file itself, living inside the
source directory. -/
def seDb : ScanEntry := ⟨⟨["m"], "cache", some "sqlite"⟩, true, 9, some sdb⟩

/-- The Reclaimed outcome produced for `exP2` in the rename scenario. -/
def exReclaimPf : ProcessedFile :=
  ⟨exP2, ⟨⟨["o"], "y", some "ogg"⟩, "h1", 20, 5, "ogg:128"⟩, .Reclaimed⟩

/-- Scanner arguments with a non-empty ignored list. -/
def sArgs2 : ScanArgs := ⟨["m"], ["o"], ["flac"], ["zip"], "ogg"⟩

/-- A walkdir entry whose extension is ignored (case differs from the
configured ignored extension). -/
def seIgn : ScanEntry :=
  ⟨⟨["m"], "b", some "ZIP"⟩, true, 3, some ⟨["m"], "b", some "ZIP"⟩⟩

/-! Helper lemmas about the filesystem, table and orphan-index primitives. -/

theorem fsHas_erase_ne (fs : FS) {p q : SPath} (h : p ≠ q) :
    fsHas (fsErase fs q) p = fsHas fs p := by
  induction fs with
  | nil => rfl
  | cons a rest ih =>
    by_cases ha : a = q
    · subst ha
      simp [fsErase, fsHas, ih, Ne.symm h]
    · by_cases hap : a = p
      · subst hap
        simp [fsErase, fsHas, ha]
      · simp [fsErase, fsHas, ha, hap, ih]

theorem fsHas_erase_self (fs : FS) (p : SPath) :
    fsHas (fsErase fs p) p = false := by
  induction fs with
  | nil => rfl
  | cons a rest ih =>
    by_cases ha : a = p
    · subst ha
      simp [fsErase, ih]
    · simp [fsErase, fsHas, ha, ih]

theorem dbGet_upsert_self (db : FileDB) (s : SPath) (i : FileInfo) :
    dbGet (dbUpsert db s i) s = some i := by
  induction db with
  | nil => simp [dbUpsert, dbGet]
  | cons kv rest ih =>
    obtain ⟨k, v⟩ := kv
    by_cases hk : k = s
    · subst hk
      simp [dbUpsert, dbGet]
    · simp [dbUpsert, dbGet, hk, ih]

theorem dbGet_upsert_ne (db : FileDB) {s t : SPath} (i : FileInfo) (h : s ≠ t) :
    dbGet (dbUpsert db s i) t = dbGet db t := by
  induction db with
  | nil => simp [dbUpsert, dbGet, h]
  | cons kv rest ih =>
    obtain ⟨k, v⟩ := kv
    by_cases hk : k = s
    · subst hk
      simp [dbUpsert, dbGet, h]
    · by_cases hkt : k = t
      · subst hkt
        simp [dbUpsert, dbGet, hk]
      · simp [dbUpsert, dbGet, hk, hkt, ih]

theorem dbGet_delete_self (db : FileDB) (p : SPath) :
    dbGet (dbDelete db p) p = none := by
  induction db with
  | nil => rfl
  | cons kv rest ih =>
    obtain ⟨k, v⟩ := kv
    by_cases hk : k = p
    · subst hk
      simp [dbDelete, ih]
    · simp [dbDelete, dbGet, hk, ih]

theorem dbGet_delete_ne (db : FileDB) {p s : SPath} (h : p ≠ s) :
    dbGet (dbDelete db p) s = dbGet db s := by
  induction db with
  | nil => rfl
  | cons kv rest ih =>
    obtain ⟨k, v⟩ := kv
    by_cases hk : k = p
    · subst hk
      simp [dbDelete, dbGet, h, ih]
    · by_cases hks : k = s
      · subst hks
        simp [dbDelete, dbGet, hk]
      · simp [dbDelete, dbGet, hk, hks, ih]

theorem dbGet_delete_none (db : FileDB) (p s : SPath) (h : dbGet db s = none) :
    dbGet (dbDelete db p) s = none := by
  by_cases hp : p = s
  · subst hp; exact dbGet_delete_self db p
  · rw [dbGet_delete_ne db hp]; exact h

theorem dbGet_prune_not_mem {ps : List SPath} {s : SPath} (h : s ∉ ps) (db : FileDB) :
    dbGet (prune db ps) s = dbGet db s := by
  induction ps generalizing db with
  | nil => rfl
  | cons p rest ih =>
    have hps : p ≠ s := fun he => h (he ▸ List.mem_cons_self p rest)
    have hrest : s ∉ rest := fun hm => h (List.mem_cons_of_mem p hm)
    simp only [prune]
    rw [ih hrest, dbGet_delete_ne db hps]

theorem dbGet_prune_mem {ps : List SPath} {s : SPath} (h : s ∈ ps) (db : FileDB) :
    dbGet (prune db ps) s = none := by
  induction ps generalizing db with
  | nil => cases h
  | cons p rest ih =>
    simp only [prune]
    by_cases hm : s ∈ rest
    · exact ih hm (dbDelete db p)
    · have hps : p = s := by
        rcases List.mem_cons.mp h with h1 | h2
        · exact h1.symm
        · exact absurd h2 hm
      subst hps
      rw [dbGet_prune_not_mem hm]
      exact dbGet_delete_self db p

theorem oGet_oAdd_self (m : Orphans) (h : String) (i : FileInfo) :
    i ∈ (oGet (oAdd m h i) h).getD [] := by
  induction m with
  | nil => simp [oAdd, oGet]
  | cons kv rest ih =>
    obtain ⟨k, v⟩ := kv
    by_cases hk : k = h
    · subst hk
      simp [oAdd, oGet]
    · simp only [oAdd, if_neg hk, oGet, if_neg hk]
      exact ih

theorem oGet_oAdd_mono (m : Orphans) (h h2 : String) (i j : FileInfo)
    (hj : j ∈ (oGet m h2).getD []) :
    j ∈ (oGet (oAdd m h i) h2).getD [] := by
  induction m with
  | nil =>
    simp only [oGet, Option.getD_none] at hj
    cases hj
  | cons kv rest ih =>
    obtain ⟨k, v⟩ := kv
    by_cases hk : k = h
    · subst hk
      by_cases hk2 : k = h2
      · subst hk2
        simp only [oGet, if_pos rfl, Option.getD_some] at hj
        simp only [oAdd, if_pos rfl, oGet, if_pos rfl, Option.getD_some]
        exact List.mem_append_left _ hj
      · simp only [oGet, if_neg hk2] at hj
        simp only [oAdd, if_pos rfl, oGet, if_neg hk2]
        exact hj
    · simp only [oAdd, if_neg hk]
      by_cases hk2 : k = h2
      · simp only [oGet, if_pos hk2, Option.getD_some] at hj
        simp only [oGet, if_pos hk2, Option.getD_some]
        exact hj
      · simp only [oGet, if_neg hk2] at hj
        simp only [oGet, if_neg hk2]
        exact ih hj

/-! Helper lemmas about the persistence writer. -/

theorem ingest_unchanged {s : SPath} :
    ∀ (rs : List ProcessedFile),
    (∀ f ∈ rs, f.src = s → f.status = .Skipped) →
    ∀ db : FileDB, dbGet (ingest_results db rs) s = dbGet db s := by
  intro rs
  induction rs with
  | nil => intro _ _; rfl
  | cons f rest ih =>
    intro h db
    have hrest : ∀ g ∈ rest, g.src = s → g.status = .Skipped :=
      fun g hg => h g (List.mem_cons_of_mem f hg)
    have hf := h f (List.mem_cons_self f rest)
    cases hst : f.status with
    | Skipped =>
      simp only [ingest_results, hst]
      exact ih hrest db
    | PassedThrough =>
      have hsrc : f.src ≠ s := fun he => by rw [hf he] at hst; cases hst
      simp only [ingest_results, hst]
      rw [ih hrest (dbUpsert db f.src f.info), dbGet_upsert_ne db f.info hsrc]
    | Transcoded =>
      have hsrc : f.src ≠ s := fun he => by rw [hf he] at hst; cases hst
      simp only [ingest_results, hst]
      rw [ih hrest (dbUpsert db f.src f.info), dbGet_upsert_ne db f.info hsrc]
    | Reclaimed =>
      have hsrc : f.src ≠ s := fun he => by rw [hf he] at hst; cases hst
      simp only [ingest_results, hst]
      rw [ih hrest (dbUpsert db f.src f.info), dbGet_upsert_ne db f.info hsrc]

theorem ingest_skipped_id :
    ∀ (rs : List ProcessedFile),
    (∀ f ∈ rs, f.status = .Skipped) →
    ∀ db : FileDB, ingest_results db rs = db := by
  intro rs
  induction rs with
  | nil => intro _ _; rfl
  | cons f rest ih =>
    intro h db
    have hf := h f (List.mem_cons_self f rest)
    simp only [ingest_results, hf]
    exact ih (fun g hg => h g (List.mem_cons_of_mem f hg)) db

theorem ingest_present {s : SPath} :
    ∀ (rs : List ProcessedFile) (db : FileDB),
    (∃ f, f ∈ rs ∧ f.src = s ∧ f.status ≠ .Skipped) →
    ∃ g, g ∈ rs ∧ g.src = s ∧ g.status ≠ .Skipped ∧
      dbGet (ingest_results db rs) s = some g.info := by
  intro rs
  induction rs with
  | nil =>
    intro db h
    obtain ⟨f, hf, _, _⟩ := h
    cases hf
  | cons a rest ih =>
    intro db h
    by_cases hfr : ∃ g, g ∈ rest ∧ g.src = s ∧ g.status ≠ .Skipped
    · have step : ∀ db2 : FileDB, ∃ g, g ∈ a :: rest ∧ g.src = s ∧ g.status ≠ .Skipped ∧
          dbGet (ingest_results db2 rest) s = some g.info := by
        intro db2
        obtain ⟨g2, h1, h2, h3, h4⟩ := ih db2 hfr
        exact ⟨g2, List.mem_cons_of_mem a h1, h2, h3, h4⟩
      cases hast : a.status with
      | Skipped => simpa only [ingest_results, hast] using step db
      | PassedThrough => simpa only [ingest_results, hast] using step (dbUpsert db a.src a.info)
      | Transcoded => simpa only [ingest_results, hast] using step (dbUpsert db a.src a.info)
      | Reclaimed => simpa only [ingest_results, hast] using step (dbUpsert db a.src a.info)
    · obtain ⟨f, hf, hfs, hfn⟩ := h
      have hfa : f = a := by
        rcases List.mem_cons.mp hf with h1 | h2
        · exact h1
        · exact absurd ⟨f, h2, hfs, hfn⟩ hfr
      subst hfa
      have hrest : ∀ g ∈ rest, g.src = s → g.status = .Skipped := by
        intro g hg hgs
        by_contra hgn
        exact hfr ⟨g, hg, hgs, hgn⟩
      cases hast : f.status with
      | Skipped => exact absurd hast hfn
      | PassedThrough =>
        refine ⟨f, List.mem_cons_self f rest, hfs, hfn, ?_⟩
        simp only [ingest_results, hast]
        rw [ingest_unchanged rest hrest, hfs, dbGet_upsert_self]
      | Transcoded =>
        refine ⟨f, List.mem_cons_self f rest, hfs, hfn, ?_⟩
        simp only [ingest_results, hast]
        rw [ingest_unchanged rest hrest, hfs, dbGet_upsert_self]
      | Reclaimed =>
        refine ⟨f, List.mem_cons_self f rest, hfs, hfn, ?_⟩
        simp only [ingest_results, hast]
        rw [ingest_unchanged rest hrest, hfs, dbGet_upsert_self]

/-! Helper lemmas about the rename-reclaim loop. -/

theorem reclaim_scan_sound (config : String) (size : Nat) (dst : SPath) :
    ∀ (cands : List FileInfo) (fs : FS) (j : FileInfo) (fs2 : FS),
    reclaim_scan config size dst fs cands = (some j, fs2) →
    j ∈ cands ∧ j.config = config ∧ j.size = size := by
  intro cands
  induction cands with
  | nil =>
    intro fs j fs2 h
    simp [reclaim_scan] at h
  | cons i rest ih =>
    intro fs j fs2 h
    simp only [reclaim_scan] at h
    by_cases h1 : fsHas fs i.dst = false
    · rw [if_pos h1] at h
      obtain ⟨hm, hc, hs⟩ := ih fs j fs2 h
      exact ⟨List.mem_cons_of_mem i hm, hc, hs⟩
    · rw [if_neg h1] at h
      by_cases h2 : i.config = config
      · rw [if_neg (fun hn => hn h2)] at h
        by_cases h3 : i.size = size
        · rw [if_neg (fun hn => hn h3)] at h
          by_cases h5 : fsHas (remove_if_there fs dst) i.dst = true
          · rw [if_pos h5] at h
            injection h with h6 h7
            injection h6 with h8
            subst h8
            exact ⟨List.mem_cons_self i rest, h2, h3⟩
          · rw [if_neg h5] at h
            obtain ⟨hm, hc, hs⟩ := ih _ j fs2 h
            exact ⟨List.mem_cons_of_mem i hm, hc, hs⟩
        · rw [if_pos h3] at h
          obtain ⟨hm, hc, hs⟩ := ih fs j fs2 h
          exact ⟨List.mem_cons_of_mem i hm, hc, hs⟩
      · rw [if_pos h2] at h
        obtain ⟨hm, hc, hs⟩ := ih fs j fs2 h
        exact ⟨List.mem_cons_of_mem i hm, hc, hs⟩

theorem reclaim_scan_finds (config : String) (size : Nat) (dst : SPath) :
    ∀ (cands : List FileInfo) (fs : FS),
    (∃ w, w ∈ cands ∧ w.config = config ∧ w.size = size ∧
      fsHas fs w.dst = true ∧ w.dst ≠ dst) →
    ∃ j fs2, reclaim_scan config size dst fs cands = (some j, fs2) := by
  intro cands
  induction cands with
  | nil =>
    intro fs h
    obtain ⟨w, hw, _⟩ := h
    cases hw
  | cons i rest ih =>
    intro fs h
    obtain ⟨w, hw, hwc, hws, hwf, hwd⟩ := h
    simp only [reclaim_scan]
    by_cases h1 : fsHas fs i.dst = false
    · rw [if_pos h1]
      have hwr : w ∈ rest := by
        rcases List.mem_cons.mp hw with he | hr
        · subst he; rw [hwf] at h1; cases h1
        · exact hr
      exact ih fs ⟨w, hwr, hwc, hws, hwf, hwd⟩
    · rw [if_neg h1]
      by_cases h2 : i.config = config
      · rw [if_neg (fun hn => hn h2)]
        by_cases h3 : i.size = size
        · rw [if_neg (fun hn => hn h3)]
          by_cases h5 : fsHas (remove_if_there fs dst) i.dst = true
          · rw [if_pos h5]
            exact ⟨i, _, rfl⟩
          · rw [if_neg h5]
            have hwf2 : fsHas (remove_if_there fs dst) w.dst = true := by
              unfold remove_if_there
              by_cases hd : fsHas fs dst = true
              · rw [if_pos hd, fsHas_erase_ne _ hwd]
                exact hwf
              · rw [if_neg hd]
                exact hwf
            have hwr : w ∈ rest := by
              rcases List.mem_cons.mp hw with he | hr
              · subst he; exact absurd hwf2 h5
              · exact hr
            exact ih (remove_if_there fs dst) ⟨w, hwr, hwc, hws, hwf2, hwd⟩
        · rw [if_pos h3]
          have hwr : w ∈ rest := by
            rcases List.mem_cons.mp hw with he | hr
            · subst he; exact absurd hws h3
            · exact hr
          exact ih fs ⟨w, hwr, hwc, hws, hwf, hwd⟩
      · rw [if_pos h2]
        have hwr : w ∈ rest := by
          rcases List.mem_cons.mp hw with he | hr
          · subst he; exact absurd hwc h2
          · exact hr
        exact ih fs ⟨w, hwr, hwc, hws, hwf, hwd⟩

/-! Helper lemmas about the post-cache-branch processing. -/

theorem process_rest_ok_inv (env : RunEnv) (fs : FS) (src : SPath)
    (args : WorkerSettings) (dt : Bool) (config : String) (mtime : Int)
    (size : Nat) (dst : SPath) (pf : ProcessedFile)
    (h : (process_rest env fs src args dt config mtime size dst).res = .ok pf) :
    pf.src = src ∧ pf.status ≠ .Skipped ∧
    (pf.status = .Reclaimed →
      ∃ hashv j fs2, env.hashOf src = some hashv ∧
        reclaim_scan config size dst fs ((oGet args.orphans hashv).getD []) = (some j, fs2) ∧
        pf.info = ⟨dst, hashv, mtime, size, config⟩) := by
  cases hh : env.hashOf src with
  | none =>
    simp only [process_rest, hh] at h
    exact Except.noConfusion h
  | some hashv =>
    cases hs : reclaim_scan config size dst fs ((oGet args.orphans hashv).getD []) with
    | mk o fs1 =>
      cases o with
      | some j =>
        simp only [process_rest, hh, hs] at h
        injection h with h9
        subst h9
        refine ⟨rfl, by simp, fun _ => ⟨hashv, j, fs1, rfl, hs, rfl⟩⟩
      | none =>
        simp only [process_rest, hh, hs] at h
        cases dt with
        | true =>
          simp only [if_true] at h
          cases ht : env.transcodeOk src with
          | true =>
            rw [ht] at h
            simp only [if_true] at h
            injection h with h9
            subst h9
            exact ⟨rfl, by simp, fun hc => by cases hc⟩
          | false =>
            rw [ht] at h
            simp only [Bool.false_eq_true, if_false] at h
            exact Except.noConfusion h
        | false =>
          simp only [Bool.false_eq_true, if_false] at h
          cases hcopy : args.should_copy with
          | true =>
            rw [hcopy] at h
            simp only [if_true] at h
            cases hc : env.copyOk src with
            | true =>
              rw [hc] at h
              simp only [if_true] at h
              injection h with h9
              subst h9
              exact ⟨rfl, by simp, fun hc2 => by cases hc2⟩
            | false =>
              rw [hc] at h
              simp only [Bool.false_eq_true, if_false] at h
              exact Except.noConfusion h
          | false =>
            rw [hcopy] at h
            simp only [Bool.false_eq_true, if_false] at h
            cases hl : env.linkOk src with
            | true =>
              rw [hl] at h
              simp only [if_true] at h
              injection h with h9
              subst h9
              exact ⟨rfl, by simp, fun hc2 => by cases hc2⟩
            | false =>
              rw [hl] at h
              simp only [Bool.false_eq_true, if_false] at h
              exact Except.noConfusion h

theorem process_rest_reclaims (env : RunEnv) (fs : FS) (src : SPath)
    (args : WorkerSettings) (dt : Bool) (config : String) (mtime : Int)
    (size : Nat) (dst : SPath) (hashv : String)
    (hh : env.hashOf src = some hashv)
    (hw : ∃ w, w ∈ (oGet args.orphans hashv).getD [] ∧ w.config = config ∧
      w.size = size ∧ fsHas fs w.dst = true ∧ w.dst ≠ dst) :
    (process_rest env fs src args dt config mtime size dst).res =
      .ok ⟨src, ⟨dst, hashv, mtime, size, config⟩, .Reclaimed⟩ ∧
    (process_rest env fs src args dt config mtime size dst).enc = 0 := by
  obtain ⟨j, fs2, hs⟩ :=
    reclaim_scan_finds config size dst ((oGet args.orphans hashv).getD []) fs hw
  refine ⟨?_, ?_⟩ <;> simp only [process_rest, hh, hs]

/-! Helper lemmas about the full per-file engine. -/

theorem process_file_skips (env : RunEnv) (fs : FS) (src : SPath)
    (args : WorkerSettings) (hit : FileInfo) (mtime : Int) (size : Nat) (dst : SPath)
    (hcache : dbGet args.cache src = some hit)
    (hstat : env.statOf src = some (mtime, size))
    (hmap : map_src_to_dst src args.src_root args.dst_root args.target_ext
      (has_extension src args.allowed_exts) = some dst)
    (hconf : hit.config = config_of args src)
    (hdst : hit.dst = dst)
    (hmt : hit.mtime = mtime) (hsz : hit.size = size)
    (hex : fsHas fs hit.dst = true) :
    process_file env fs src args =
      ⟨.ok ⟨src, ⟨dst, hit.hash, hit.mtime, hit.size, config_of args src⟩, .Skipped⟩,
        fs, 0⟩ := by
  simp only [process_file, hstat, hmap, hcache]
  rw [if_neg (fun hn => hn hconf), if_neg (fun hn => hn hdst), if_pos ⟨hmt, hsz, hex⟩]

theorem process_file_ok_src (env : RunEnv) (fs : FS) (src : SPath)
    (args : WorkerSettings) (pf : ProcessedFile)
    (h : (process_file env fs src args).res = .ok pf) : pf.src = src := by
  cases hstat : env.statOf src with
  | none =>
    simp only [process_file, hstat] at h
    exact Except.noConfusion h
  | some ms =>
    obtain ⟨mtime, size⟩ := ms
    cases hmap : map_src_to_dst src args.src_root args.dst_root args.target_ext
        (has_extension src args.allowed_exts) with
    | none =>
      simp only [process_file, hstat, hmap] at h
      exact Except.noConfusion h
    | some dst =>
      cases hcache : dbGet args.cache src with
      | none =>
        simp only [process_file, hstat, hmap, hcache] at h
        exact (process_rest_ok_inv env fs src args _ _ mtime size dst pf h).1
      | some hit =>
        simp only [process_file, hstat, hmap, hcache] at h
        by_cases h1 : hit.config ≠ config_of args src
        · rw [if_pos h1] at h
          exact (process_rest_ok_inv env _ src args _ _ mtime size dst pf h).1
        · rw [if_neg h1] at h
          by_cases h2 : hit.dst ≠ dst
          · rw [if_pos h2] at h
            exact (process_rest_ok_inv env _ src args _ _ mtime size dst pf h).1
          · rw [if_neg h2] at h
            by_cases h3 : hit.mtime = mtime ∧ hit.size = size ∧ fsHas fs hit.dst = true
            · rw [if_pos h3] at h
              injection h with h9
              subst h9
              rfl
            · rw [if_neg h3] at h
              exact (process_rest_ok_inv env _ src args _ _ mtime size dst pf h).1

/-! Helper lemmas about the scanner. -/

theorem scan_go_append (args : ScanArgs) (dbCanon : SPath) :
    ∀ (pre rest : List ScanEntry) (st : List SPath × List (SPath × Nat)),
    scan_go args dbCanon st (pre ++ rest) =
      match scan_go args dbCanon st pre with
      | none => none
      | some st1 => scan_go args dbCanon st1 rest := by
  intro pre
  induction pre with
  | nil => intro rest st; rfl
  | cons e pre2 ih =>
    intro rest st
    simp only [List.cons_append, scan_go]
    cases hs : scan_step args dbCanon st e with
    | none => rfl
    | some st1 => exact ih rest st1

theorem find_src_files_skip_entry (args : ScanArgs) (dbCanon : SPath)
    (pre post : List ScanEntry) (e : ScanEntry)
    (h : ∀ st : List SPath × List (SPath × Nat),
      scan_go args dbCanon ([], []) pre = some st →
      scan_step args dbCanon st e = some st) :
    find_src_files args dbCanon (pre ++ e :: post) =
    find_src_files args dbCanon (pre ++ post) := by
  unfold find_src_files
  rw [scan_go_append args dbCanon pre (e :: post) ([], []),
      scan_go_append args dbCanon pre post ([], [])]
  cases hp : scan_go args dbCanon ([], []) pre with
  | none => rfl
  | some st =>
    have hstep : scan_go args dbCanon st (e :: post) = scan_go args dbCanon st post := by
      simp only [scan_go, h st hp]
    simp only [hstep]

theorem scan_step_noop_db (args : ScanArgs) (dbCanon : SPath)
    (st : List SPath × List (SPath × Nat)) (e : ScanEntry)
    (h1 : fileName e.path = fileName dbCanon) (h2 : e.canon = some dbCanon) :
    scan_step args dbCanon st e = some st := by
  unfold scan_step
  by_cases hf : e.isFile = false
  · rw [if_pos hf]
  · rw [if_neg hf, if_pos ⟨h1, h2⟩]

theorem scan_step_noop_ignored (args : ScanArgs) (dbCanon : SPath)
    (st : List SPath × List (SPath × Nat)) (e : ScanEntry)
    (h : has_extension e.path args.ignored_exts = true) :
    scan_step args dbCanon st e = some st := by
  unfold scan_step
  by_cases hf : e.isFile = false
  · rw [if_pos hf]
  · rw [if_neg hf]
    by_cases hdb : fileName e.path = fileName dbCanon ∧ e.canon = some dbCanon
    · rw [if_pos hdb]
    · rw [if_neg hdb, if_pos h]

theorem scan_step_noop_collision (args : ScanArgs) (dbCanon : SPath)
    (st : List SPath × List (SPath × Nat)) (e : ScanEntry) (dst : SPath)
    (hf : e.isFile = true)
    (hdb : ¬(fileName e.path = fileName dbCanon ∧ e.canon = some dbCanon))
    (hig : has_extension e.path args.ignored_exts = false)
    (hmap : map_src_to_dst e.path args.source args.destination args.format
      (has_extension e.path args.allowed_exts) = some dst)
    (hcol : dst ∈ st.1) :
    scan_step args dbCanon st e = some st := by
  unfold scan_step
  rw [if_neg (fun hc => by rw [hf] at hc; cases hc), if_neg hdb,
      if_neg (fun hc => by rw [hig] at hc; cases hc)]
  simp only [hmap]
  rw [if_pos hcol]

theorem scan_step_mono (args : ScanArgs) (dbCanon : SPath)
    (st st1 : List SPath × List (SPath × Nat)) (e : ScanEntry)
    (h : scan_step args dbCanon st e = some st1) :
    ∀ x ∈ st.2, x ∈ st1.2 := by
  intro x hx
  unfold scan_step at h
  by_cases h1 : e.isFile = false
  · rw [if_pos h1] at h
    injection h with h9
    subst h9
    exact hx
  · rw [if_neg h1] at h
    by_cases h2 : fileName e.path = fileName dbCanon ∧ e.canon = some dbCanon
    · rw [if_pos h2] at h
      injection h with h9
      subst h9
      exact hx
    · rw [if_neg h2] at h
      by_cases h3 : has_extension e.path args.ignored_exts = true
      · rw [if_pos h3] at h
        injection h with h9
        subst h9
        exact hx
      · rw [if_neg h3] at h
        cases hm : map_src_to_dst e.path args.source args.destination args.format
            (has_extension e.path args.allowed_exts) with
        | none =>
          rw [hm] at h
          exact Option.noConfusion h
        | some dst =>
          rw [hm] at h
          simp only at h
          by_cases h4 : dst ∈ st.1
          · rw [if_pos h4] at h
            injection h with h9
            subst h9
            exact hx
          · rw [if_neg h4] at h
            injection h with h9
            subst h9
            exact List.mem_append_left _ hx

theorem scan_go_files_mono (args : ScanArgs) (dbCanon : SPath) :
    ∀ (rest : List ScanEntry) (st st2 : List SPath × List (SPath × Nat)),
    scan_go args dbCanon st rest = some st2 → ∀ x ∈ st.2, x ∈ st2.2 := by
  intro rest
  induction rest with
  | nil =>
    intro st st2 h x hx
    injection h with h9
    subst h9
    exact hx
  | cons e rest2 ih =>
    intro st st2 h x hx
    simp only [scan_go] at h
    cases hs : scan_step args dbCanon st e with
    | none =>
      rw [hs] at h
      exact Option.noConfusion h
    | some st1 =>
      rw [hs] at h
      simp only at h
      exact ih st1 st2 h x (scan_step_mono args dbCanon st st1 e hs x hx)

theorem mem_insertBySize (x y : SPath × Nat) :
    ∀ l : List (SPath × Nat), y ∈ insertBySize x l ↔ y = x ∨ y ∈ l := by
  intro l
  induction l with
  | nil => simp [insertBySize]
  | cons a rest ih =>
    simp only [insertBySize]
    by_cases h : x.2 ≤ a.2
    · rw [if_pos h]
      simp only [List.mem_cons]
    · rw [if_neg h]
      simp only [List.mem_cons, ih]
      tauto

theorem mem_sortBySize (y : SPath × Nat) :
    ∀ l : List (SPath × Nat), y ∈ sortBySize l ↔ y ∈ l := by
  intro l
  induction l with
  | nil => simp [sortBySize]
  | cons a rest ih =>
    simp only [sortBySize, mem_insertBySize, List.mem_cons, ih]

/-! Helper lemmas about orphan-set construction. -/

theorem find_orphans_go_all_live :
    ∀ (cache : FileDB) (files : List SPath) (acc : Orphans × List SPath),
    (∀ kv ∈ cache, kv.1 ∈ files) → find_orphans_go acc cache files = acc := by
  intro cache
  induction cache with
  | nil => intro files acc _; rfl
  | cons kv rest ih =>
    intro files acc h
    obtain ⟨src, info⟩ := kv
    simp only [find_orphans_go]
    rw [if_pos (h (src, info) (List.mem_cons_self _ _))]
    exact ih files acc (fun kv2 hk => h kv2 (List.mem_cons_of_mem _ hk))

theorem find_orphans_go_acc_prune :
    ∀ (cache : FileDB) (files : List SPath) (acc : Orphans × List SPath) (s : SPath),
    s ∈ acc.2 → s ∈ (find_orphans_go acc cache files).2 := by
  intro cache
  induction cache with
  | nil => intro files acc s h; exact h
  | cons kv rest ih =>
    intro files acc s h
    obtain ⟨src, info⟩ := kv
    simp only [find_orphans_go]
    by_cases hm : src ∈ files
    · rw [if_pos hm]
      exact ih files acc s h
    · rw [if_neg hm]
      exact ih files _ s (List.mem_append_left _ h)

theorem find_orphans_go_acc_group :
    ∀ (cache : FileDB) (files : List SPath) (acc : Orphans × List SPath)
      (h2 : String) (j : FileInfo),
    j ∈ (oGet acc.1 h2).getD [] →
    j ∈ (oGet (find_orphans_go acc cache files).1 h2).getD [] := by
  intro cache
  induction cache with
  | nil => intro files acc h2 j h; exact h
  | cons kv rest ih =>
    intro files acc h2 j h
    obtain ⟨src, info⟩ := kv
    simp only [find_orphans_go]
    by_cases hm : src ∈ files
    · rw [if_pos hm]
      exact ih files acc h2 j h
    · rw [if_neg hm]
      exact ih files _ h2 j (oGet_oAdd_mono acc.1 info.hash h2 info j h)

theorem find_orphans_go_prune_mem :
    ∀ (cache : FileDB) (files : List SPath) (acc : Orphans × List SPath)
      (s : SPath) (i : FileInfo),
    (s, i) ∈ cache → s ∉ files →
    s ∈ (find_orphans_go acc cache files).2 := by
  intro cache
  induction cache with
  | nil =>
    intro files acc s i h _
    cases h
  | cons kv rest ih =>
    intro files acc s i h hnl
    obtain ⟨src, info⟩ := kv
    rcases List.mem_cons.mp h with he | hr
    · injection he with he1 he2
      subst he1
      simp only [find_orphans_go]
      rw [if_neg hnl]
      exact find_orphans_go_acc_prune rest files _ s
        (List.mem_append_right _ (List.mem_singleton.mpr rfl))
    · simp only [find_orphans_go]
      by_cases hm : src ∈ files
      · rw [if_pos hm]
        exact ih files acc s i hr hnl
      · rw [if_neg hm]
        exact ih files _ s i hr hnl

theorem find_orphans_go_group_mem :
    ∀ (cache : FileDB) (files : List SPath) (acc : Orphans × List SPath)
      (s : SPath) (i : FileInfo),
    (s, i) ∈ cache → s ∉ files →
    i ∈ (oGet (find_orphans_go acc cache files).1 i.hash).getD [] := by
  intro cache
  induction cache with
  | nil =>
    intro files acc s i h _
    cases h
  | cons kv rest ih =>
    intro files acc s i h hnl
    obtain ⟨src, info⟩ := kv
    rcases List.mem_cons.mp h with he | hr
    · injection he with he1 he2
      subst he1
      subst he2
      simp only [find_orphans_go]
      rw [if_neg hnl]
      exact find_orphans_go_acc_group rest files _ i.hash i
        (oGet_oAdd_self acc.1 i.hash i)
    · simp only [find_orphans_go]
      by_cases hm : src ∈ files
      · rw [if_pos hm]
        exact ih files acc s i hr hnl
      · rw [if_neg hm]
        exact ih files _ s i hr hnl

theorem find_orphans_go_prune_not_live :
    ∀ (cache : FileDB) (files : List SPath) (acc : Orphans × List SPath),
    (∀ s ∈ acc.2, s ∉ files) →
    ∀ s ∈ (find_orphans_go acc cache files).2, s ∉ files := by
  intro cache
  induction cache with
  | nil => intro files acc h; exact h
  | cons kv rest ih =>
    intro files acc h
    obtain ⟨src, info⟩ := kv
    simp only [find_orphans_go]
    by_cases hm : src ∈ files
    · rw [if_pos hm]
      exact ih files acc h
    · rw [if_neg hm]
      refine ih files _ ?_
      intro s hs
      rcases List.mem_append.mp hs with h1 | h2
      · exact h s h1
      · rw [List.mem_singleton.mp h2]
        exact hm

theorem find_orphans_prune_not_live (cache : FileDB) (files : List SPath) :
    ∀ s ∈ (find_orphans cache files).2, s ∉ files := by
  unfold find_orphans
  exact find_orphans_go_prune_not_live cache files ([], [])
    (fun s hs => absurd hs (List.not_mem_nil s))

/-! Helper lemmas about the sequentialized worker pipeline. -/

theorem run_files_fst (env : RunEnv) (args : WorkerSettings) :
    ∀ (files : List SPath) (fs : FS),
    ((run_files env args fs files).1).map Prod.fst = files := by
  intro files
  induction files with
  | nil => intro fs; rfl
  | cons src rest ih =>
    intro fs
    simp [run_files, ih]

theorem run_files_ok_src (env : RunEnv) (args : WorkerSettings) :
    ∀ (files : List SPath) (fs : FS) (s : SPath) (pf : ProcessedFile),
    (s, .ok pf) ∈ (run_files env args fs files).1 → pf.src = s := by
  intro files
  induction files with
  | nil =>
    intro fs s pf h
    cases h
  | cons src rest ih =>
    intro fs s pf h
    simp only [run_files] at h
    rcases List.mem_cons.mp h with he | hr
    · injection he with h1 h2
      subst h1
      exact process_file_ok_src env fs s args pf h2.symm
    · exact ih _ s pf hr

theorem mem_unique_fst {α β : Type} [DecidableEq α] [DecidableEq β] :
    ∀ (l : List (α × β)) (s : α), (l.map Prod.fst).count s = 1 →
    ∀ x y : α × β, x ∈ l → y ∈ l → x.1 = s → y.1 = s → x = y := by
  intro l
  induction l with
  | nil =>
    intro s _ x y hx
    cases hx
  | cons a rest ih =>
    intro s h x y hx hy hxs hys
    by_cases ha : a.1 = s
    · have hzero : (rest.map Prod.fst).count s = 0 := by
        simp only [List.map_cons, List.count_cons, ha] at h
        simpa using h
      have hnone : ∀ z : α × β, z ∈ rest → z.1 ≠ s := by
        intro z hz hzs
        have : s ∈ rest.map Prod.fst := hzs ▸ List.mem_map_of_mem Prod.fst hz
        exact absurd this (List.count_eq_zero.mp hzero)
      have hxa : x = a := by
        rcases List.mem_cons.mp hx with h1 | h2
        · exact h1
        · exact absurd hxs (hnone x h2)
      have hya : y = a := by
        rcases List.mem_cons.mp hy with h1 | h2
        · exact h1
        · exact absurd hys (hnone y h2)
      rw [hxa, hya]
    · have hone : (rest.map Prod.fst).count s = 1 := by
        simp only [List.map_cons, List.count_cons] at h
        simpa [ha] using h
      have hxr : x ∈ rest := by
        rcases List.mem_cons.mp hx with h1 | h2
        · exact absurd (h1 ▸ hxs) ha
        · exact h2
      have hyr : y ∈ rest := by
        rcases List.mem_cons.mp hy with h1 | h2
        · exact absurd (h1 ▸ hys) ha
        · exact h2
      exact ih s hone x y hxr hyr hxs hys

theorem find_src_files_eq (args : ScanArgs) (dbCanon : SPath)
    (entries : List ScanEntry) (st2 : List SPath × List (SPath × Nat))
    (h : scan_go args dbCanon ([], []) entries = some st2) :
    find_src_files args dbCanon entries =
      some (((sortBySize st2.2).reverse).map (fun x => x.1)) := by
  unfold find_src_files
  simp only [h]

theorem find_src_files_none (args : ScanArgs) (dbCanon : SPath)
    (entries : List ScanEntry)
    (h : scan_go args dbCanon ([], []) entries = none) :
    find_src_files args dbCanon entries = none := by
  unfold find_src_files
  simp only [h]

theorem ok_results_mem :
    ∀ (l : List (SPath × Except PfError ProcessedFile)) (f : ProcessedFile),
    f ∈ ok_results l → ∃ s, (s, Except.ok f) ∈ l := by
  intro l
  induction l with
  | nil =>
    intro f h
    cases h
  | cons x rest ih =>
    intro f h
    obtain ⟨s, r⟩ := x
    cases r with
    | ok g =>
      simp only [ok_results] at h
      rcases List.mem_cons.mp h with he | hr
      · exact ⟨s, by rw [he]; exact List.mem_cons_self _ _⟩
      · obtain ⟨s2, hs2⟩ := ih f hr
        exact ⟨s2, List.mem_cons_of_mem _ hs2⟩
    | error e =>
      simp only [ok_results] at h
      obtain ⟨s2, hs2⟩ := ih f h
      exact ⟨s2, List.mem_cons_of_mem _ hs2⟩

theorem tally_fails_of_err :
    ∀ (l : List (SPath × Except PfError ProcessedFile)) (s : SPath) (e : PfError),
    (s, Except.error e) ∈ l → 1 ≤ (tally l).fails := by
  intro l
  induction l with
  | nil =>
    intro s e h
    cases h
  | cons x rest ih =>
    intro s e h
    rcases List.mem_cons.mp h with he | hr
    · rw [← he]
      simp [tally]
    · have h1 := ih s e hr
      have h2 : (tally rest).fails ≤ (tally (x :: rest)).fails := by
        obtain ⟨s2, r2⟩ := x
        cases r2 with
        | ok g =>
          cases hst : g.status <;> simp [tally, hst]
        | error e2 =>
          simp [tally]
      omega

theorem run_files_skips (env : RunEnv) (args : WorkerSettings) :
    ∀ (files : List SPath) (fs : FS),
    (∀ src ∈ files, ∃ hit mtime size dst,
      dbGet args.cache src = some hit ∧ env.statOf src = some (mtime, size) ∧
      map_src_to_dst src args.src_root args.dst_root args.target_ext
        (has_extension src args.allowed_exts) = some dst ∧
      hit.config = config_of args src ∧ hit.dst = dst ∧
      hit.mtime = mtime ∧ hit.size = size ∧ fsHas fs hit.dst = true) →
    (∀ x ∈ (run_files env args fs files).1,
      ∃ pf, x.2 = .ok pf ∧ pf.status = .Skipped) ∧
    (run_files env args fs files).2.1 = fs ∧
    (run_files env args fs files).2.2 = 0 := by
  intro files
  induction files with
  | nil =>
    intro fs _
    exact ⟨fun x hx => absurd hx (List.not_mem_nil x), rfl, rfl⟩
  | cons src rest ih =>
    intro fs h
    obtain ⟨hit, mtime, size, dst, h1, h2, h3, h4, h5, h6, h7, h8⟩ :=
      h src (List.mem_cons_self src rest)
    have hskip := process_file_skips env fs src args hit mtime size dst h1 h2 h3 h4 h5 h6 h7 h8
    obtain ⟨ha, hb, hc⟩ := ih fs (fun s hs => h s (List.mem_cons_of_mem _ hs))
    refine ⟨?_, ?_, ?_⟩
    · intro x hx
      simp only [run_files, hskip] at hx
      rcases List.mem_cons.mp hx with he | hr
      · exact ⟨_, by rw [he], rfl⟩
      · exact ha x hr
    · simp only [run_files, hskip]
      exact hb
    · simp only [run_files, hskip]
      rw [hc]

/-! Claim theorems. -/

/-- Claim C1, counterexample: the persistence writer does not persist Skipped
outcomes — ingesting a stream holding a single Skipped outcome into an empty
store leaves the store empty, with no record under that source path, whereas
the claim demands an upsert for every Skipped outcome. -/
theorem c1_counterexample :
    exSkipPf.status = FileStatus.Skipped ∧
    ingest_results [] [exSkipPf] = [] ∧
    dbGet (ingest_results [] [exSkipPf]) exSkipPf.src = none :=
  ⟨rfl, rfl, rfl⟩

/-- Claim C1 (amended): the persistence writer persists exactly the
PassedThrough, Transcoded and Reclaimed outcomes of the result stream.  A
source path all of whose stream entries are Skipped (in particular one with
no entries at all, such as a failed file, dropped before ingestion) keeps its
previous store row unchanged, and every stream entry with one of the three
durable statuses ends up with a row under its source path whose contents come
from such a durable entry. -/
theorem c1_ingest_persists_durable_only (db : FileDB) (rs : List ProcessedFile) :
    (∀ s : SPath, (∀ f ∈ rs, f.src = s → f.status = .Skipped) →
      dbGet (ingest_results db rs) s = dbGet db s) ∧
    (∀ f ∈ rs, f.status ≠ .Skipped →
      ∃ g, g ∈ rs ∧ g.src = f.src ∧ g.status ≠ .Skipped ∧
        dbGet (ingest_results db rs) f.src = some g.info) := by
  constructor
  · intro s hs
    exact ingest_unchanged rs hs db
  · intro f hf hst
    exact ingest_present rs db ⟨f, hf, rfl, hst⟩

/-- Witness for the amended C1: a Skipped-only stream leaves the record of its
source path unchanged, and a PassedThrough outcome is recorded. -/
theorem c1_witness :
    dbGet (ingest_results exDB [exSkipPf]) exP2 = dbGet exDB exP2 ∧
    ∃ g, g ∈ [exPassPf] ∧ g.src = exPassPf.src ∧ g.status ≠ .Skipped ∧
      dbGet (ingest_results exDB [exPassPf]) exPassPf.src = some g.info := by
  constructor
  · exact (c1_ingest_persists_durable_only exDB [exSkipPf]).1 exP2 (by decide)
  · exact (c1_ingest_persists_durable_only exDB [exPassPf]).2 exPassPf
      (List.mem_cons_self _ _) (by decide)

/-- Claim C2, counterexample: `sp1` (walked first, size 1) and `sp2` (walked
second, size 2) map to the same destination; in descending-size discovery
order `sp2` would come first and be kept, but the scanner keeps `sp1`, the
first in traversal order, and drops `sp2`. -/
theorem c2_counterexample :
    map_src_to_dst sp1 sArgs.source sArgs.destination sArgs.format
        (has_extension sp1 sArgs.allowed_exts) =
      map_src_to_dst sp2 sArgs.source sArgs.destination sArgs.format
        (has_extension sp2 sArgs.allowed_exts) ∧
    se1.size < se2.size ∧
    sp1 ≠ sp2 ∧
    find_src_files sArgs sdb [se1, se2] = some [sp1] :=
  ⟨by decide, by decide, by decide, by decide⟩

/-- Claim C2 (amended): destination-path collisions are resolved during the
directory walk, before the descending-size sort, so the first source path in
traversal (discovery) order wins regardless of size: an entry whose computed
destination was already allocated by an earlier entry is dropped — the
candidate list is as if the entry were never walked, so it produces no
destination file and no record — while every candidate recorded before it (in
particular the first-walked owner of that destination) survives into the
returned candidate list. -/
theorem c2_first_in_walk_order_wins
    (args : ScanArgs) (dbCanon : SPath) (pre post : List ScanEntry)
    (e : ScanEntry) (dst : SPath) (st : List SPath × List (SPath × Nat))
    (w : SPath × Nat)
    (hpre : scan_go args dbCanon ([], []) pre = some st)
    (hf : e.isFile = true)
    (hdb : ¬(fileName e.path = fileName dbCanon ∧ e.canon = some dbCanon))
    (hig : has_extension e.path args.ignored_exts = false)
    (hmap : map_src_to_dst e.path args.source args.destination args.format
      (has_extension e.path args.allowed_exts) = some dst)
    (hcol : dst ∈ st.1)
    (hw : w ∈ st.2) :
    find_src_files args dbCanon (pre ++ e :: post) =
      find_src_files args dbCanon (pre ++ post) ∧
    ∀ l, find_src_files args dbCanon (pre ++ e :: post) = some l → w.1 ∈ l := by
  have h12 : find_src_files args dbCanon (pre ++ e :: post) =
      find_src_files args dbCanon (pre ++ post) := by
    apply find_src_files_skip_entry
    intro st2 hst2
    rw [hpre] at hst2
    injection hst2 with h9
    subst h9
    exact scan_step_noop_collision args dbCanon st e dst hf hdb hig hmap hcol
  refine ⟨h12, ?_⟩
  intro l hl
  rw [h12] at hl
  have happ := scan_go_append args dbCanon pre post ([], [])
  simp only [hpre] at happ
  cases hsc : scan_go args dbCanon st post with
  | none =>
    rw [hsc] at happ
    rw [find_src_files_none args dbCanon _ happ] at hl
    exact Option.noConfusion hl
  | some st3 =>
    rw [hsc] at happ
    rw [find_src_files_eq args dbCanon _ st3 happ] at hl
    injection hl with h9
    subst h9
    have hw3 : w ∈ st3.2 := scan_go_files_mono args dbCanon post st st3 hsc w hw
    simpa using
      List.mem_map_of_mem (fun x => x.1)
        (List.mem_reverse.mpr ((mem_sortBySize w st3.2).mpr hw3))

/-- Witness for the amended C2: with `se1` walked first, the colliding later
entry `se2` is dropped without affecting the result, and `sp1` survives. -/
theorem c2_witness :
    (find_src_files sArgs sdb ([se1] ++ se2 :: []) =
      find_src_files sArgs sdb ([se1] ++ []) ∧
    ∀ l, find_src_files sArgs sdb ([se1] ++ se2 :: []) = some l →
      (sp1, 1).1 ∈ l) :=
  c2_first_in_walk_order_wins sArgs sdb [se1] [] se2 ⟨["o"], "a", some "ogg"⟩
    ⟨[⟨["o"], "a", some "ogg"⟩], [(sp1, 1)]⟩ (sp1, 1)
    (by decide) rfl (by decide) (by decide) (by decide) (by decide) (by decide)

/-- Claim C3: for a candidate with a cache record under its source path, the
outcome is Skipped exactly when the stored config tag equals the current one,
the stored destination equals the freshly computed one, the stored mtime and
size equal the current ones, and the destination file exists on disk; in that
case the engine returns the stored hash unchanged (no re-hash), touching
neither the filesystem nor the encoder, and any single mismatch in the
conjunction forces reprocessing (a non-Skipped outcome or a per-file error). -/
theorem c3_skip_exact_conjunction (env : RunEnv) (fs : FS) (src : SPath)
    (args : WorkerSettings) (hit : FileInfo) (mtime : Int) (size : Nat) (dst : SPath)
    (hcache : dbGet args.cache src = some hit)
    (hstat : env.statOf src = some (mtime, size))
    (hmap : map_src_to_dst src args.src_root args.dst_root args.target_ext
      (has_extension src args.allowed_exts) = some dst) :
    ((∃ pf, (process_file env fs src args).res = .ok pf ∧ pf.status = .Skipped) ↔
      (hit.config = config_of args src ∧ hit.dst = dst ∧ hit.mtime = mtime ∧
        hit.size = size ∧ fsHas fs dst = true)) ∧
    (hit.config = config_of args src → hit.dst = dst → hit.mtime = mtime →
      hit.size = size → fsHas fs dst = true →
      process_file env fs src args =
        ⟨.ok ⟨src, ⟨dst, hit.hash, hit.mtime, hit.size, config_of args src⟩, .Skipped⟩,
          fs, 0⟩) := by
  have hskip : ∀ (h1 : hit.config = config_of args src) (h2 : hit.dst = dst)
      (h3 : hit.mtime = mtime) (h4 : hit.size = size) (h5 : fsHas fs dst = true),
      process_file env fs src args =
        ⟨.ok ⟨src, ⟨dst, hit.hash, hit.mtime, hit.size, config_of args src⟩, .Skipped⟩,
          fs, 0⟩ := by
    intro h1 h2 h3 h4 h5
    exact process_file_skips env fs src args hit mtime size dst hcache hstat hmap
      h1 h2 h3 h4 (by rw [h2]; exact h5)
  refine ⟨⟨?_, ?_⟩, hskip⟩
  · rintro ⟨pf, hok, hsk⟩
    simp only [process_file, hstat, hmap, hcache] at hok
    by_cases h1 : hit.config ≠ config_of args src
    · rw [if_pos h1] at hok
      exact absurd hsk
        (process_rest_ok_inv env _ src args _ _ mtime size dst pf hok).2.1
    · rw [if_neg h1] at hok
      by_cases h2 : hit.dst ≠ dst
      · rw [if_pos h2] at hok
        exact absurd hsk
          (process_rest_ok_inv env _ src args _ _ mtime size dst pf hok).2.1
      · rw [if_neg h2] at hok
        by_cases h3 : hit.mtime = mtime ∧ hit.size = size ∧ fsHas fs hit.dst = true
        · obtain ⟨h3a, h3b, h3c⟩ := h3
          have hd := not_not.mp h2
          exact ⟨not_not.mp h1, hd, h3a, h3b, hd ▸ h3c⟩
        · rw [if_neg h3] at hok
          exact absurd hsk
            (process_rest_ok_inv env _ src args _ _ mtime size dst pf hok).2.1
  · rintro ⟨h1, h2, h3, h4, h5⟩
    exact ⟨_, by rw [hskip h1 h2 h3 h4 h5], rfl⟩

/-- Witness for C3: in the unchanged-second-run scenario the conjunction holds
and the engine returns Skipped with the stored hash. -/
theorem c3_witness :
    (process_file exEnv exFS2 exP2 exSt2).res =
      .ok ⟨exP2, ⟨⟨["o"], "y", some "ogg"⟩, "h1", 20, 5, "ogg:128"⟩, .Skipped⟩ := by
  have h := (c3_skip_exact_conjunction exEnv exFS2 exP2 exSt2 exRec2 20 5
      ⟨["o"], "y", some "ogg"⟩ (by decide) (by decide) (by decide)).2
    (by decide) (by decide) (by decide) (by decide) (by decide)
  rw [h]
  decide

/-- Claim C4: a Reclaimed outcome arises only from an orphan entry in the
group of the candidate's content hash whose config tag and size both equal
the candidate's, and the orphan loop never claims an entry whose size
differs from the candidate's (the hash-match/size-mismatch anomaly is passed
over), so two files with equal hash but different sizes are never merged. -/
theorem c4_reclaim_requires_full_match :
    (∀ (env : RunEnv) (fs : FS) (src : SPath) (args : WorkerSettings)
      (pf : ProcessedFile),
      (process_file env fs src args).res = .ok pf → pf.status = .Reclaimed →
      ∃ j, j ∈ (oGet args.orphans pf.info.hash).getD [] ∧
        j.config = pf.info.config ∧ j.size = pf.info.size) ∧
    (∀ (config : String) (size : Nat) (dst : SPath) (fs : FS)
      (cands : List FileInfo) (j : FileInfo),
      (reclaim_scan config size dst fs cands).1 = some j →
      j ∈ cands ∧ j.config = config ∧ j.size = size) := by
  have part2 : ∀ (config : String) (size : Nat) (dst : SPath) (fs : FS)
      (cands : List FileInfo) (j : FileInfo),
      (reclaim_scan config size dst fs cands).1 = some j →
      j ∈ cands ∧ j.config = config ∧ j.size = size := by
    intro config size dst fs cands j h
    cases heq : reclaim_scan config size dst fs cands with
    | mk o fs2 =>
      rw [heq] at h
      have h2 : o = some j := h
      subst h2
      exact reclaim_scan_sound config size dst cands fs j fs2 heq
  refine ⟨?_, part2⟩
  intro env fs src args pf hok hst
  have main : ∀ (fs0 : FS) (dt : Bool) (config : String) (mtime : Int)
      (size : Nat) (dst : SPath),
      (process_rest env fs0 src args dt config mtime size dst).res = .ok pf →
      ∃ j, j ∈ (oGet args.orphans pf.info.hash).getD [] ∧
        j.config = pf.info.config ∧ j.size = pf.info.size := by
    intro fs0 dt config mtime size dst hok2
    obtain ⟨_, _, hrec⟩ :=
      process_rest_ok_inv env fs0 src args dt config mtime size dst pf hok2
    obtain ⟨hashv, j, fs2, hh, hs, hinfo⟩ := hrec hst
    obtain ⟨hmem, hc, hsz⟩ := reclaim_scan_sound config size dst _ fs0 j fs2 hs
    refine ⟨j, ?_, ?_, ?_⟩
    · rw [hinfo]
      exact hmem
    · rw [hinfo]
      exact hc
    · rw [hinfo]
      exact hsz
  cases hstat : env.statOf src with
  | none =>
    simp only [process_file, hstat] at hok
    exact Except.noConfusion hok
  | some ms =>
    obtain ⟨mtime, size⟩ := ms
    cases hmap : map_src_to_dst src args.src_root args.dst_root args.target_ext
        (has_extension src args.allowed_exts) with
    | none =>
      simp only [process_file, hstat, hmap] at hok
      exact Except.noConfusion hok
    | some dst =>
      cases hcache : dbGet args.cache src with
      | none =>
        simp only [process_file, hstat, hmap, hcache] at hok
        exact main fs _ _ mtime size dst hok
      | some hit =>
        simp only [process_file, hstat, hmap, hcache] at hok
        by_cases h1 : hit.config ≠ config_of args src
        · rw [if_pos h1] at hok
          exact main _ _ _ mtime size dst hok
        · rw [if_neg h1] at hok
          by_cases h2 : hit.dst ≠ dst
          · rw [if_pos h2] at hok
            exact main _ _ _ mtime size dst hok
          · rw [if_neg h2] at hok
            by_cases h3 : hit.mtime = mtime ∧ hit.size = size ∧ fsHas fs hit.dst = true
            · rw [if_pos h3] at hok
              injection hok with h9
              subst h9
              exact absurd hst (by simp)
            · rw [if_neg h3] at hok
              exact main _ _ _ mtime size dst hok

/-- Witness for C4: the rename scenario yields a Reclaimed outcome whose
orphan matches on hash, config and size, and the loop claims exactly the
matching entry. -/
theorem c4_witness :
    (∃ j, j ∈ (oGet exSt.orphans exReclaimPf.info.hash).getD [] ∧
      j.config = exReclaimPf.info.config ∧ j.size = exReclaimPf.info.size) ∧
    (exRec ∈ [exRec] ∧ exRec.config = "ogg:128" ∧ exRec.size = 5) := by
  constructor
  · exact c4_reclaim_requires_full_match.1 exEnv exFS exP2 exSt exReclaimPf
      (by decide) rfl
  · exact c4_reclaim_requires_full_match.2 "ogg:128" 5 ⟨["o"], "y", some "ogg"⟩
      exFS [exRec] exRec (by decide)

/-- Claim C5: after a forced reprocess — a cache hit whose config tag differs,
or whose stored destination differs from the freshly computed one — the engine
still consults the orphan index: whenever a suitable orphan exists there, the
outcome is Reclaimed rather than a transcode or passthrough, exactly as on a
pure cache miss. -/
theorem c5_forced_reprocess_still_reclaims (env : RunEnv) (fs : FS) (src : SPath)
    (args : WorkerSettings) (hit : FileInfo) (mtime : Int) (size : Nat)
    (dst : SPath) (hashv : String) (w : FileInfo)
    (hcache : dbGet args.cache src = some hit)
    (hstat : env.statOf src = some (mtime, size))
    (hmap : map_src_to_dst src args.src_root args.dst_root args.target_ext
      (has_extension src args.allowed_exts) = some dst)
    (hforce : hit.config ≠ config_of args src ∨ hit.dst ≠ dst)
    (hhash : env.hashOf src = some hashv)
    (hw : w ∈ (oGet args.orphans hashv).getD [])
    (hwc : w.config = config_of args src)
    (hws : w.size = size)
    (hwf : fsHas fs w.dst = true)
    (hwne1 : w.dst ≠ hit.dst)
    (hwne2 : w.dst ≠ dst) :
    (process_file env fs src args).res =
      .ok ⟨src, ⟨dst, hashv, mtime, size, config_of args src⟩, .Reclaimed⟩ := by
  have hwf2 : fsHas (fsErase fs hit.dst) w.dst = true := by
    rw [fsHas_erase_ne fs hwne1]
    exact hwf
  have hex : ∃ w2, w2 ∈ (oGet args.orphans hashv).getD [] ∧
      w2.config = config_of args src ∧ w2.size = size ∧
      fsHas (fsErase fs hit.dst) w2.dst = true ∧ w2.dst ≠ dst :=
    ⟨w, hw, hwc, hws, hwf2, hwne2⟩
  simp only [process_file, hstat, hmap, hcache]
  rcases hforce with hf | hf
  · rw [if_pos hf]
    exact (process_rest_reclaims env (fsErase fs hit.dst) src args
      (has_extension src args.allowed_exts) (config_of args src)
      mtime size dst hashv hhash hex).1
  · by_cases h1 : hit.config ≠ config_of args src
    · rw [if_pos h1]
      exact (process_rest_reclaims env (fsErase fs hit.dst) src args
        (has_extension src args.allowed_exts) (config_of args src)
        mtime size dst hashv hhash hex).1
    · rw [if_neg h1, if_pos hf]
      exact (process_rest_reclaims env (fsErase fs hit.dst) src args
        (has_extension src args.allowed_exts) (config_of args src)
        mtime size dst hashv hhash hex).1

/-- Witness for C5: with a stale record for the candidate (old bitrate tag
"ogg:64") forcing a reprocess, the orphaned output of `exP1` is still
reclaimed. -/
theorem c5_witness :
    (process_file exEnv exFS exP2 exSt5).res =
      .ok ⟨exP2, ⟨⟨["o"], "y", some "ogg"⟩, "h1", 20, 5, "ogg:128"⟩, .Reclaimed⟩ := by
  have h := c5_forced_reprocess_still_reclaims exEnv exFS exP2 exSt5 exOld 20 5
    ⟨["o"], "y", some "ogg"⟩ "h1" exRec (by decide) (by decide) (by decide)
    (Or.inl (by decide)) (by decide) (by decide) (by decide) (by decide)
    (by decide) (by decide) (by decide)
  rw [h]
  decide

/-- Claim C6: idempotence — when the loaded cache is exactly the persisted
table of the previous run over the same unchanged tree and configuration
(every candidate has a record matching its current config tag, destination,
mtime and size, the recorded destination still exists, and the table holds no
other rows), the second run yields a Skipped outcome for every candidate,
touches neither filesystem nor encoder, and ingestion followed by pruning
leaves the persisted table exactly unchanged. -/
theorem c6_second_run_idempotent (env : RunEnv) (args : WorkerSettings)
    (db : FileDB) (files : List SPath) (fs : FS)
    (hcache : args.cache = db)
    (hlive : ∀ kv ∈ db, kv.1 ∈ files)
    (hrec : ∀ src ∈ files, ∃ hit mtime size dst,
      dbGet db src = some hit ∧ env.statOf src = some (mtime, size) ∧
      map_src_to_dst src args.src_root args.dst_root args.target_ext
        (has_extension src args.allowed_exts) = some dst ∧
      hit.config = config_of args src ∧ hit.dst = dst ∧
      hit.mtime = mtime ∧ hit.size = size ∧ fsHas fs hit.dst = true) :
    (∀ x ∈ (run_files env args fs files).1,
      ∃ pf, x.2 = .ok pf ∧ pf.status = .Skipped) ∧
    prune (ingest_results db (ok_results (run_files env args fs files).1))
      (find_orphans db files).2 = db ∧
    (run_files env args fs files).2.1 = fs ∧
    (run_files env args fs files).2.2 = 0 := by
  subst hcache
  obtain ⟨ha, hb, hc⟩ := run_files_skips env args files fs hrec
  refine ⟨ha, ?_, hb, hc⟩
  have hall : ∀ f ∈ ok_results (run_files env args fs files).1,
      f.status = .Skipped := by
    intro f hf
    obtain ⟨s, hs⟩ := ok_results_mem _ f hf
    obtain ⟨pf, he, hsk⟩ := ha (s, .ok f) hs
    injection he with h9
    rw [h9]
    exact hsk
  rw [ingest_skipped_id _ hall args.cache]
  have ho : find_orphans args.cache files = ([], []) := by
    unfold find_orphans
    exact find_orphans_go_all_live args.cache files ([], []) hlive
  rw [ho]
  rfl

/-- Witness for C6: the unchanged-second-run scenario skips its only
candidate and leaves the one-row table unchanged. -/
theorem c6_witness :
    (∀ x ∈ (run_files exEnv exSt2 exFS2 exFiles).1,
      ∃ pf, x.2 = .ok pf ∧ pf.status = .Skipped) ∧
    prune (ingest_results exDB2 (ok_results (run_files exEnv exSt2 exFS2 exFiles).1))
      (find_orphans exDB2 exFiles).2 = exDB2 ∧
    (run_files exEnv exSt2 exFS2 exFiles).2.1 = exFS2 ∧
    (run_files exEnv exSt2 exFS2 exFiles).2.2 = 0 := by
  refine c6_second_run_idempotent exEnv exSt2 exDB2 exFiles exFS2 rfl (by decide) ?_
  intro src hsrc
  have hs : src = exP2 := List.mem_singleton.mp hsrc
  subst hs
  exact ⟨exRec2, 20, 5, ⟨["o"], "y", some "ogg"⟩, by decide, by decide, by decide,
    by decide, by decide, by decide, by decide, by decide⟩

/-- Claim C7: rename detection — if the bytes previously processed under path
P1 now live at P2 (same hash and size), P1 is absent from the candidates and
P2 has no cache record, then processing P2 yields a Reclaimed outcome reusing
the stored output, with zero encoder invocations, and P1 is listed for
pruning, so its record is deleted from the store by the prune step. -/
theorem c7_rename_reclaims_and_prunes (env : RunEnv) (args : WorkerSettings)
    (db : FileDB) (files : List SPath) (fs : FS)
    (p1 p2 : SPath) (r : FileInfo) (mtime : Int) (size : Nat) (dst : SPath)
    (hcache : args.cache = db)
    (horph : args.orphans = (find_orphans db files).1)
    (hmem : (p1, r) ∈ db)
    (hgone : p1 ∉ files)
    (hnew : dbGet db p2 = none)
    (hstat : env.statOf p2 = some (mtime, size))
    (hhash : env.hashOf p2 = some r.hash)
    (hmap : map_src_to_dst p2 args.src_root args.dst_root args.target_ext
      (has_extension p2 args.allowed_exts) = some dst)
    (hconf : r.config = config_of args p2)
    (hsize : r.size = size)
    (hex : fsHas fs r.dst = true)
    (hne : r.dst ≠ dst) :
    (process_file env fs p2 args).res =
      .ok ⟨p2, ⟨dst, r.hash, mtime, size, config_of args p2⟩, .Reclaimed⟩ ∧
    (process_file env fs p2 args).enc = 0 ∧
    p1 ∈ (find_orphans db files).2 ∧
    ∀ db2 : FileDB, dbGet (prune db2 (find_orphans db files).2) p1 = none := by
  have hgrp : r ∈ (oGet (find_orphans db files).1 r.hash).getD [] := by
    unfold find_orphans
    exact find_orphans_go_group_mem db files ([], []) p1 r hmem hgone
  have hcget : dbGet args.cache p2 = none := by
    rw [hcache]
    exact hnew
  have hex2 : ∃ w, w ∈ (oGet args.orphans r.hash).getD [] ∧
      w.config = config_of args p2 ∧ w.size = size ∧
      fsHas fs w.dst = true ∧ w.dst ≠ dst := by
    rw [horph]
    exact ⟨r, hgrp, hconf, hsize, hex, hne⟩
  have hprunemem : p1 ∈ (find_orphans db files).2 := by
    unfold find_orphans
    exact find_orphans_go_prune_mem db files ([], []) p1 r hmem hgone
  refine ⟨?_, ?_, hprunemem, fun db2 => dbGet_prune_mem hprunemem db2⟩
  · simp only [process_file, hstat, hmap, hcget]
    exact (process_rest_reclaims env fs p2 args
      (has_extension p2 args.allowed_exts) (config_of args p2)
      mtime size dst r.hash hhash hex2).1
  · simp only [process_file, hstat, hmap, hcget]
    exact (process_rest_reclaims env fs p2 args
      (has_extension p2 args.allowed_exts) (config_of args p2)
      mtime size dst r.hash hhash hex2).2

/-- Witness for C7: the rename scenario, with P1's record pruned from any
table and P2 reclaimed without an encoder call. -/
theorem c7_witness :
    (process_file exEnv exFS exP2 exSt).res =
      .ok ⟨exP2, ⟨⟨["o"], "y", some "ogg"⟩, exRec.hash, 20, 5,
        config_of exSt exP2⟩, .Reclaimed⟩ ∧
    (process_file exEnv exFS exP2 exSt).enc = 0 ∧
    exP1 ∈ (find_orphans exDB exFiles).2 ∧
    ∀ db2 : FileDB, dbGet (prune db2 (find_orphans exDB exFiles).2) exP1 = none :=
  c7_rename_reclaims_and_prunes exEnv exSt exDB exFiles exFS exP1 exP2 exRec 20 5
    ⟨["o"], "y", some "ogg"⟩ rfl rfl (by decide) (by decide) (by decide)
    (by decide) (by decide) (by decide) (by decide) (by decide) (by decide)
    (by decide)

/-- Claim C8: a per-file failure is isolated — the failed candidate is counted
as a failure, no upsert happens for it (its previous record, if any, is left
untouched by ingestion, and the prune step never deletes a live candidate),
and every other candidate still gets exactly one result of its own. -/
theorem c8_per_file_error_isolated (env : RunEnv) (args : WorkerSettings)
    (db : FileDB) (files : List SPath) (fs : FS) (src : SPath) (e : PfError)
    (hcount : files.count src = 1)
    (herr : (src, Except.error e) ∈ (run_files env args fs files).1) :
    dbGet (prune (ingest_results db (ok_results (run_files env args fs files).1))
      (find_orphans db files).2) src = dbGet db src ∧
    1 ≤ (tally (run_files env args fs files).1).fails ∧
    ((run_files env args fs files).1).map Prod.fst = files := by
  have hfst := run_files_fst env args files fs
  have hsrcmem : src ∈ files := by
    rw [← hfst]
    simpa using List.mem_map_of_mem Prod.fst herr
  have hcount2 : (((run_files env args fs files).1).map Prod.fst).count src = 1 := by
    rw [hfst]
    exact hcount
  refine ⟨?_, tally_fails_of_err _ src e herr, hfst⟩
  have hnook : ∀ f ∈ ok_results (run_files env args fs files).1,
      f.src = src → False := by
    intro f hf hfs
    obtain ⟨s, hs⟩ := ok_results_mem _ f hf
    have hsrc : f.src = s := run_files_ok_src env args files fs s f hs
    have hseq : s = src := hsrc.symm.trans hfs
    subst hseq
    have huni := mem_unique_fst ((run_files env args fs files).1) s hcount2
      (s, Except.ok f) (s, Except.error e) hs herr rfl rfl
    injection huni with h1 h2
    exact Except.noConfusion h2
  have hun : dbGet (ingest_results db (ok_results (run_files env args fs files).1))
      src = dbGet db src :=
    ingest_unchanged _ (fun f hf hfs => ((hnook f hf hfs)).elim) db
  have hnp : src ∉ (find_orphans db files).2 :=
    fun hmem2 => find_orphans_prune_not_live db files src hmem2 hsrcmem
  rw [dbGet_prune_not_mem hnp, hun]

/-- Witness for C8: a run in which every stat fails errors on its only
candidate, leaving its row untouched and counting one failure. -/
theorem c8_witness :
    dbGet (prune (ingest_results exDB2
        (ok_results (run_files exEnvFail exSt2 exFS2 exFiles).1))
      (find_orphans exDB2 exFiles).2) exP2 = dbGet exDB2 exP2 ∧
    1 ≤ (tally (run_files exEnvFail exSt2 exFS2 exFiles).1).fails ∧
    ((run_files exEnvFail exSt2 exFS2 exFiles).1).map Prod.fst = exFiles :=
  c8_per_file_error_isolated exEnvFail exSt2 exDB2 exFiles exFS2 exP2 .statFail
    (by decide) (by decide)

/-- Claim C9: extension classification is case-insensitive on both the path
extension and the configured lists; a path whose extension is in the ignored
list is classified Ignore even when it is also allowed (ignored dominates
allowed, and the scanner drops such an entry outright); and a path with no
extension is classified Passthrough. -/
theorem c9_classification :
    (∀ (dirs : List String) (stem e1 e2 : String) (l : List String),
      lowerStr e1 = lowerStr e2 →
      has_extension ⟨dirs, stem, some e1⟩ l = has_extension ⟨dirs, stem, some e2⟩ l) ∧
    (∀ (p : SPath) (l1 l2 : List String),
      l1.map lowerStr = l2.map lowerStr →
      has_extension p l1 = has_extension p l2) ∧
    (∀ (p : SPath) (allowed ignored : List String),
      has_extension p ignored = true → classify p allowed ignored = .Ignore) ∧
    (∀ (p : SPath) (allowed ignored : List String),
      p.ext = none → classify p allowed ignored = .Passthrough) ∧
    (∀ (args : ScanArgs) (dbCanon : SPath) (pre post : List ScanEntry)
      (e : ScanEntry),
      has_extension e.path args.ignored_exts = true →
      find_src_files args dbCanon (pre ++ e :: post) =
        find_src_files args dbCanon (pre ++ post)) := by
  refine ⟨?_, ?_, ?_, ?_, ?_⟩
  · intro dirs stem e1 e2 l h
    simp only [has_extension, h]
  · intro p l1 l2 h
    cases hext : p.ext with
    | none => simp only [has_extension, hext]
    | some ext =>
      have key : ∀ l : List String,
          l.any (fun x => lowerStr x == lowerStr ext) =
          (l.map lowerStr).any (fun y => y == lowerStr ext) := by
        intro l
        rw [List.any_map]
        rfl
      simp only [has_extension, hext]
      rw [key l1, key l2, h]
  · intro p allowed ignored h
    unfold classify
    rw [if_pos h]
  · intro p allowed ignored h
    have h1 : ∀ l : List String, has_extension p l = false := by
      intro l
      unfold has_extension
      rw [h]
    unfold classify
    rw [h1, h1]
    rfl
  · intro args dbCanon pre post e h
    exact find_src_files_skip_entry args dbCanon pre post e
      (fun st _ => scan_step_noop_ignored args dbCanon st e h)

/-- Witness for C9: case-insensitive matching on both sides, dominance of the
ignored list, extensionless passthrough, and the scanner dropping an entry
whose extension differs from the ignored one only in case. -/
theorem c9_witness :
    (has_extension ⟨[], "a", some "FLAC"⟩ ["flac"] =
      has_extension ⟨[], "a", some "flac"⟩ ["flac"]) ∧
    (has_extension ⟨[], "a", some "flac"⟩ ["FLAC"] =
      has_extension ⟨[], "a", some "flac"⟩ ["flac"]) ∧
    (classify ⟨[], "a", some "mp3"⟩ ["mp3"] ["mp3"] = .Ignore) ∧
    (classify ⟨[], "a", none⟩ ["flac"] ["zip"] = .Passthrough) ∧
    (find_src_files sArgs2 sdb ([] ++ seIgn :: []) =
      find_src_files sArgs2 sdb ([] ++ [])) :=
  ⟨c9_classification.1 [] "a" "FLAC" "flac" ["flac"] (by decide),
   c9_classification.2.1 ⟨[], "a", some "flac"⟩ ["FLAC"] ["flac"] (by decide),
   c9_classification.2.2.1 ⟨[], "a", some "mp3"⟩ ["mp3"] ["mp3"] (by decide),
   c9_classification.2.2.2.1 ⟨[], "a", none⟩ ["flac"] ["zip"] rfl,
   c9_classification.2.2.2.2 sArgs2 sdb [] [] seIgn (by decide)⟩

/-- Claim C10: the SQLite database file is never a candidate — a walkdir entry
whose file name matches the database file name and whose canonicalized path
equals the canonicalized database path is dropped by the scanner, leaving the
candidate list exactly as if the entry were never walked, so the database file
is never transcoded, passed through, or recorded. -/
theorem c10_db_file_excluded (args : ScanArgs) (dbCanon : SPath)
    (pre post : List ScanEntry) (e : ScanEntry)
    (_hfile : e.isFile = true)
    (hname : fileName e.path = fileName dbCanon)
    (hcanon : e.canon = some dbCanon) :
    find_src_files args dbCanon (pre ++ e :: post) =
    find_src_files args dbCanon (pre ++ post) :=
  find_src_files_skip_entry args dbCanon pre post e
    (fun st _ => scan_step_noop_db args dbCanon st e hname hcanon)

/-- Witness for C10: the database file inside the source directory is
excluded from the scan. -/
theorem c10_witness :
    find_src_files sArgs sdb ([se1] ++ seDb :: []) =
    find_src_files sArgs sdb ([se1] ++ []) :=
  c10_db_file_excluded sArgs sdb [se1] [] seDb rfl (by decide) rfl

end Sidechain
